import Mathlib

set_option maxRecDepth 100000

/-!
Shallow embedding of the Intelligent Document Agent backend core
(text chunking, in-process vector store fallback, RAG answering),
together with proofs about the claims of its specification.

Strings from the Python source are modelled as `List Char`; Python's
`len` is `List.length`, slicing and `str.strip`/`str.split` are
modelled by explicit executable functions below.  Floating point
vectors are modelled over `ℝ`.
-/

namespace DocAgent

/-- Python `str.isspace` characters relevant here (matches `str.split()`
and `str.strip()` default whitespace). -/
def pyIsSpace (c : Char) : Bool :=
  c == ' ' || c == '\t' || c == '\n' || c == '\r' || c == '\x0b' || c == '\x0c'

/-- Sentence-ending punctuation used by `re.split(r'[.!?]+', ...)` in
`TextProcessor._split_long_text` and by the lookbehind split in
`RAGAgentService.simple_answer`. -/
def isPunct (c : Char) : Bool :=
  c == '.' || c == '!' || c == '?'

/-- Python `str.strip()`: drop leading and trailing whitespace. -/
def py_strip (l : List Char) : List Char :=
  ((l.dropWhile pyIsSpace).reverse.dropWhile pyIsSpace).reverse

/-- Python `s[-n:] if len(s) > n else ""`, the overlap-seed idiom used
throughout `TextProcessor`. -/
def py_tail (n : Nat) (l : List Char) : List Char :=
  if n < l.length then l.drop (l.length - n) else []

/-- Prepend a character to the first piece of a split result. -/
def consHead (c : Char) : List (List Char) → List (List Char)
  | [] => [[c]]
  | p :: ps => (c :: p) :: ps

/-- Split a character list at maximal runs of characters satisfying `p`,
keeping empty boundary pieces, exactly like `re.split(r'[X]+', s)`.
The flag records whether we are currently inside a delimiter run. -/
def split_runs (p : Char → Bool) : Bool → List Char → List (List Char)
  | _, [] => [[]]
  | true, c :: r =>
      if p c then split_runs p true r
      else consHead c (split_runs p false r)
  | false, c :: r =>
      if p c then [] :: split_runs p true r
      else consHead c (split_runs p false r)

/-- Python `re.split(r'[.!?]+', text)` from `_split_long_text`. -/
def split_sents (l : List Char) : List (List Char) :=
  split_runs isPunct false l

/-- Python `str.split()` with no arguments: whitespace split, empties
discarded. -/
def py_words (l : List Char) : List (List Char) :=
  (split_runs pyIsSpace false l).filter (· ≠ [])

/-- State for the `text.split('\n\n')` scanner: completed pieces, the
current piece, and whether a lone `'\n'` is pending. -/
structure PSt where
  ps : List (List Char)
  cur : List Char
  nl : Bool

/-- One character step of the `'\n\n'` splitter: a pending newline
followed by another newline closes the current piece. -/
def para_step_ch (st : PSt) (c : Char) : PSt :=
  if st.nl then
    if c = '\n' then ⟨st.ps ++ [st.cur], [], false⟩
    else ⟨st.ps, st.cur ++ ['\n', c], false⟩
  else
    if c = '\n' then ⟨st.ps, st.cur, true⟩
    else ⟨st.ps, st.cur ++ [c], false⟩

/-- Python `text.split('\n\n')` from `_recursive_chunking`. -/
def split_paras (l : List Char) : List (List Char) :=
  let st := l.foldl para_step_ch ⟨[], [], false⟩
  st.ps ++ [if st.nl then st.cur ++ ['\n'] else st.cur]

/-- Configured chunk size, `settings.CHUNK_SIZE`. -/
def CHUNK_SIZE : Nat := 1000

/-- Configured chunk overlap, `settings.CHUNK_OVERLAP`. -/
def CHUNK_OVERLAP : Nat := 200

/-- One iteration of the word loop of `TextProcessor._split_long_text`:
state is `(chunks, word_chunk)`. -/
def word_step (cs ov : Nat) (st : List (List Char) × List Char) (w : List Char) :
    List (List Char) × List Char :=
  let st' :=
    if cs < st.2.length + w.length then
      if st.2 ≠ [] then (st.1 ++ [py_strip st.2], py_tail ov st.2) else st
    else st
  (st'.1, if st'.2 = [] then w else st'.2 ++ ' ' :: w)

/-- One iteration of the sentence loop of `TextProcessor._split_long_text`:
state is `(chunks, current_chunk)`. -/
def sent_step (cs ov : Nat) (st : List (List Char) × List Char) (s : List Char) :
    List (List Char) × List Char :=
  if cs < st.2.length + s.length then
    let st' := if st.2 ≠ [] then (st.1 ++ [py_strip st.2], py_tail ov st.2) else st
    if cs < s.length then
      let r := (py_words s).foldl (word_step cs ov) (st'.1, [])
      (r.1, if r.2 ≠ [] then r.2 else st'.2)
    else (st'.1, s)
  else (st.1, if st.2 = [] then s else st.2 ++ '.' :: ' ' :: s)

/-- Python `TextProcessor._split_long_text(text, chunk_size, chunk_overlap)`. -/
def split_long_text (cs ov : Nat) (text : List Char) : List (List Char) :=
  let r := (split_sents text).foldl (sent_step cs ov) ([], [])
  if r.2 ≠ [] then r.1 ++ [py_strip r.2] else r.1

/-- One iteration of the paragraph loop of `TextProcessor._recursive_chunking`:
state is `(chunks, current_chunk)`. -/
def para_step (cs ov : Nat) (st : List (List Char) × List Char) (p : List Char) :
    List (List Char) × List Char :=
  if cs < st.2.length + p.length then
    let st' := if st.2 ≠ [] then (st.1 ++ [py_strip st.2], py_tail ov st.2) else st
    if cs < p.length then (st'.1 ++ split_long_text cs ov p, [])
    else (st'.1, p)
  else (st.1, if st.2 = [] then p else st.2 ++ '\n' :: '\n' :: p)

/-- Python `TextProcessor._recursive_chunking(text)` with the configured
`settings.CHUNK_SIZE` and `settings.CHUNK_OVERLAP`. -/
def recursive_chunking (text : List Char) : List (List Char) :=
  let r := (split_paras text).foldl (para_step CHUNK_SIZE CHUNK_OVERLAP) ([], [])
  let chunks := if r.2 ≠ [] then r.1 ++ [py_strip r.2] else r.1
  chunks.filter (fun c => py_strip c ≠ [])

/-- Result of `TextProcessor.chunk_text`: either chunks or the
`ValueError` message raised for an unknown method. -/
def chunk_text (semImpl custImpl : List Char → List (List Char))
    (text : List Char) (method : String) : Except String (List (List Char)) :=
  if method = "recursive" then .ok (recursive_chunking text)
  else if method = "semantic" then .ok (semImpl text)
  else if method = "custom" then .ok (custImpl text)
  else .error ("Unknown chunking method: " ++ method)


/-! ### Vector store (`services/vector_store.py`, in-process fallback) -/

/-- Payload stored with every vector; the source requires at least
`content` and `chunk_index`. -/
structure Payload where
  content : List Char
  chunk_index : Nat
deriving DecidableEq

/-- One stored entry of the in-memory fallback:
`{"embedding": np.array(vector), **payload}`. -/
structure Entry where
  embedding : List ℝ
  payload : Payload

/-- The in-memory fallback store `self.collections`, an insertion-ordered
string-keyed dictionary. -/
abbrev Store := List (String × List Entry)

/-- Dictionary lookup on the fallback store. -/
def lookup_coll : Store → String → Option (List Entry)
  | [], _ => none
  | (k, es) :: rest, cid => if k = cid then some es else lookup_coll rest cid

/-- Python `VectorStoreService.create_collection` (fallback branch):
insert an empty list if the key is absent. -/
def create_collection (store : Store) (cid : String) : Store :=
  if (lookup_coll store cid).isSome then store else store ++ [(cid, [])]

/-- Update the entry list of an existing key. -/
def update_coll : Store → String → (List Entry → List Entry) → Store
  | [], _, _ => []
  | (k, es) :: rest, cid, f =>
      if k = cid then (k, f es) :: rest else (k, es) :: update_coll rest cid f

/-- Python `VectorStoreService.add_vector` (fallback branch): create the
collection if needed, append the entry, and return
`f"{collection_id}_vector_{len(self.collections[collection_id])}"`. -/
def add_vector (store : Store) (cid : String) (v : List ℝ) (p : Payload) :
    Store × String :=
  let store1 := create_collection store cid
  let store2 := update_coll store1 cid (fun es => es ++ [⟨v, p⟩])
  (store2, cid ++ "_vector_" ++ toString (((lookup_coll store2 cid).getD []).length))

/-- Python `np.dot` on equal-length vectors. -/
noncomputable def dot_list (a b : List ℝ) : ℝ :=
  (List.zipWith (· * ·) a b).sum

/-- Python `np.linalg.norm`. -/
noncomputable def norm_list (a : List ℝ) : ℝ :=
  Real.sqrt (dot_list a a)

/-- The local `cosine_sim` of `VectorStoreService.search`:
`np.dot(a, b) / (np.linalg.norm(a) * np.linalg.norm(b) + 1e-8)`. -/
noncomputable def cosine_sim (a b : List ℝ) : ℝ :=
  dot_list a b / (norm_list a * norm_list b + 1 / 10 ^ 8)

/-- Python `VectorStoreService.search` (fallback branch), parametrised by
the already-embedded query vector: score every entry, sort the
`(sim, chunk)` pairs descending by score (Python `list.sort` is stable,
`reverse=True` keeps insertion order among equal scores, matching
`List.insertionSort` with the weak descending relation), and return the
first `top_k` chunks. -/
noncomputable def vs_search (store : Store) (cid : String)
    (query_emb : List ℝ) (top_k : Nat) : List Entry :=
  match lookup_coll store cid with
  | none => []
  | some entries =>
    if entries.isEmpty then []
    else
      let scored := entries.map (fun e => (cosine_sim query_emb e.embedding, e))
      let sorted := List.insertionSort (fun a b => b.1 ≤ a.1) scored
      (sorted.take top_k).map (·.2)

/-! ### RAG agent (`services/rag_agent_service.py`) -/

/-- Scanner for `re.split(r'(?<=[.!?]) +', context)`: a run of spaces
directly preceded by sentence punctuation is a delimiter; the
punctuation stays with the preceding piece.  The flag records whether we
are currently skipping the delimiter space run. -/
def lb_go : Bool → List Char → List (List Char)
  | _, [] => [[]]
  | true, c :: r =>
      if c == ' ' then lb_go true r
      else if isPunct c && (r.head? == some ' ') then [c] :: lb_go true r
      else consHead c (lb_go false r)
  | false, c :: r =>
      if isPunct c && (r.head? == some ' ') then [c] :: lb_go true r
      else consHead c (lb_go false r)

/-- Python `re.split(r'(?<=[.!?]) +', context)` from `simple_answer`. -/
def lb_split (l : List Char) : List (List Char) :=
  lb_go false l

/-- Python `str.lower()` (ASCII-adequate). -/
def to_lower (l : List Char) : List Char :=
  l.map Char.toLower

/-- Python `len(question_words & sentence_words)`: the number of distinct
lowercase words of the sentence that also occur in the question word set. -/
def inter_score (qws : List (List Char)) (s : List Char) : Nat :=
  ((py_words (to_lower s)).dedup.filter (fun w => w ∈ qws)).length

/-- One iteration of the best-sentence loop of `simple_answer`: keep the
candidate only on a strict score improvement. -/
def best_step (qws : List (List Char)) (b : List Char × Nat) (s : List Char) :
    List Char × Nat :=
  let sc := inter_score qws s
  if b.2 < sc then (s, sc) else b

/-- The fixed sentinel context of `process_message`. -/
def no_ctx_msg : List Char := "No relevant context found.".data

/-- The fixed could-not-find-relevant-information answer. -/
def apology_msg : List Char :=
  "Sorry, I could not find relevant information in the uploaded document.".data

/-- The fixed document-not-found response of `process_message`. -/
def doc_missing_msg : List Char :=
  "Sorry, I could not find the uploaded document or its data. Please ensure the file is processed and available.".data

/-- Python `RAGAgentService.simple_answer(question, context)`. -/
def simple_answer (question context : List Char) : List Char :=
  if context = [] ∨ context = no_ctx_msg then apology_msg
  else if ((lb_split context).foldl (best_step (py_words (to_lower question))) ([], 0)).1 ≠ [] then
    py_strip ((lb_split context).foldl (best_step (py_words (to_lower question))) ([], 0)).1
  else if 200 < context.length then context.take 200 ++ "...".data else context

/-- The `{response, sources, tools_used}` dictionary returned by
`RAGAgentService.process_message`. -/
structure AgentResponse where
  response : List Char
  sources : List Entry
  tools_used : List String

/-- Python `"\n".join(...)`. -/
def join_nl : List (List Char) → List Char
  | [] => []
  | [x] => x
  | x :: xs => x ++ '\n' :: join_nl xs

/-- The non-error tail of `process_message`: build the context from the
retrieved chunks (or the sentinel), pick the answer, and wrap both in the
fixed response template. -/
def rag_reply (message : List Char) (chunks : List Entry) : AgentResponse :=
  let context := if chunks.isEmpty then no_ctx_msg
                 else join_nl (chunks.map (fun e => e.payload.content))
  let answer := if chunks.isEmpty then apology_msg else simple_answer message context
  ⟨"Context:\n".data ++ context ++ "\n\nAnswer: ".data ++ answer,
   chunks, ["vector_search"]⟩

/-- Does `needle` occur as a contiguous substring of the second list? -/
def starts_with : List Char → List Char → Bool
  | [], _ => true
  | _ :: _, [] => false
  | a :: ns, b :: hs => a == b && starts_with ns hs

/-- Python `needle in hay` on strings. -/
def contains_sub (needle : List Char) : List Char → Bool
  | [] => needle.isEmpty
  | c :: r => starts_with needle (c :: r) || contains_sub needle r

/-- Python `RAGAgentService.process_message`, parametrised by the outcome
of the vector-store search (`Except` models the raised exception's
message).  The search is only attempted when `collection_name` is truthy
(neither `None` nor the empty string). -/
def process_message (message : List Char) (collection_name : Option String)
    (searchOutcome : Except (List Char) (List Entry)) : AgentResponse :=
  if (collection_name.getD "") = "" then rag_reply message []
  else
    match searchOutcome with
    | .error e =>
        if contains_sub "doesn\x27t exist".data e || contains_sub "Not found".data e then
          ⟨doc_missing_msg, [], ["vector_search"]⟩
        else
          ⟨"An error occurred while searching the document: ".data ++ e,
           [], ["vector_search"]⟩
    | .ok chunks => rag_reply message chunks

end DocAgent


namespace DocAgent

/-! ### Store lemmas for claim C1 -/

/-- Number of entries of a collection whose payload carries a given
`chunk_index`. -/
def count_chunk_index (store : Store) (cid : String) (j : Nat) : Nat :=
  (((lookup_coll store cid).getD []).filter (fun e => e.payload.chunk_index == j)).length

/-- Best sentence according to the claim's wording: the first sentence
(split at sentence-ending punctuation followed by a space) attaining the
maximal keyword-overlap score, or none when no sentence shares a word
with the question. -/
def claim_best_sentence (question context : List Char) : Option (List Char) :=
  if ((lb_split context).map (inter_score (py_words (to_lower question)))).foldr max 0 = 0 then
    none
  else
    (lb_split context).find? (fun s =>
      inter_score (py_words (to_lower question)) s ==
        ((lb_split context).map (inter_score (py_words (to_lower question)))).foldr max 0)

/-- Answer according to the claim's wording, taken literally: the first
maximizing sentence verbatim, else the truncated context prefix. -/
def claim_answer_verbatim (question context : List Char) : List Char :=
  match claim_best_sentence question context with
  | some s => s
  | none => if 200 < context.length then context.take 200 ++ "...".data else context

/-- Answer according to the claim as amended: the first maximizing
sentence with surrounding whitespace stripped, else the truncated
context prefix. -/
def claim_answer (question context : List Char) : List Char :=
  match claim_best_sentence question context with
  | some s => py_strip s
  | none => if 200 < context.length then context.take 200 ++ "...".data else context

/-- All whitespace-delimited words of the punctuation-split sentences of
the double-newline-split paragraphs of the text: exactly the word tokens
the recursive chunker can ever feed to its word-level loop. -/
def all_words (text : List Char) : List (List Char) :=
  ((split_paras text).map (fun p => ((split_sents p).map py_words).flatten)).flatten

/-- Length of the longest word token of the text (0 if none). -/
def max_word_len (text : List Char) : Nat :=
  ((all_words text).map List.length).foldr max 0

/-- Strict ranking of indexed scored entries: strictly higher cosine
score first, ties broken by lower original insertion index. -/
def score_rank (a b : Nat × (ℝ × Entry)) : Prop :=
  b.2.1 < a.2.1 ∨ (a.2.1 = b.2.1 ∧ a.1 < b.1)

/-- Weak (reflexive total) version of `score_rank`. -/
def score_rank_weak (a b : Nat × (ℝ × Entry)) : Prop :=
  b.2.1 < a.2.1 ∨ (a.2.1 = b.2.1 ∧ a.1 ≤ b.1)

noncomputable instance : DecidableRel score_rank := fun a b => by
  unfold score_rank
  infer_instance

noncomputable instance : DecidableRel score_rank_weak := fun a b => by
  unfold score_rank_weak
  infer_instance

instance : IsTotal (Nat × (ℝ × Entry)) score_rank_weak := by
  constructor
  intro a b
  unfold score_rank_weak
  rcases lt_trichotomy a.2.1 b.2.1 with h | h | h
  · exact Or.inr (Or.inl h)
  · rcases Nat.le_total a.1 b.1 with hi | hi
    · exact Or.inl (Or.inr ⟨h, hi⟩)
    · exact Or.inr (Or.inr ⟨h.symm, hi⟩)
  · exact Or.inl (Or.inl h)

instance : IsTrans (Nat × (ℝ × Entry)) score_rank_weak := by
  constructor
  intro a b c hab hbc
  unfold score_rank_weak at hab hbc ⊢
  rcases hab with h1 | ⟨h1, h1i⟩
  · rcases hbc with h2 | ⟨h2, h2i⟩
    · exact Or.inl (lt_trans h2 h1)
    · exact Or.inl (h2 ▸ h1)
  · rcases hbc with h2 | ⟨h2, h2i⟩
    · exact Or.inl (lt_of_lt_of_eq h2 h1.symm)
    · exact Or.inr ⟨h1.trans h2, le_trans h1i h2i⟩

theorem lookup_update (s : Store) (cid : String) (f : List Entry → List Entry) :
    lookup_coll (update_coll s cid f) cid = (lookup_coll s cid).map f := by
  induction s with
  | nil => rfl
  | cons kv rest ih =>
      obtain ⟨k, es⟩ := kv
      by_cases h : k = cid <;> simp [update_coll, lookup_coll, h, ih]

theorem lookup_append_self (s : Store) (cid : String) (es : List Entry)
    (h : lookup_coll s cid = none) :
    lookup_coll (s ++ [(cid, es)]) cid = some es := by
  induction s with
  | nil => simp [lookup_coll]
  | cons kv rest ih =>
      obtain ⟨k, es'⟩ := kv
      by_cases hk : k = cid
      · simp [lookup_coll, hk] at h
      · simp only [lookup_coll, hk, if_neg] at h ⊢
        simp [List.cons_append, lookup_coll, hk, ih h]

theorem lookup_create (s : Store) (cid : String) :
    lookup_coll (create_collection s cid) cid = some ((lookup_coll s cid).getD []) := by
  unfold create_collection
  cases h : lookup_coll s cid with
  | none => simp [h, lookup_append_self s cid [] h]
  | some es => simp [h]

theorem add_vector_spec (store : Store) (cid : String) (v : List ℝ) (p : Payload) :
    lookup_coll (add_vector store cid v p).1 cid =
        some (((lookup_coll store cid).getD []) ++ [⟨v, p⟩]) ∧
      (add_vector store cid v p).2 =
        cid ++ "_vector_" ++ toString (((lookup_coll store cid).getD []).length + 1) := by
  unfold add_vector
  have h1 := lookup_create store cid
  have h2 := lookup_update (create_collection store cid) cid (fun es => es ++ [⟨v, p⟩])
  rw [h1] at h2
  simp only [Option.map_some'] at h2
  refine ⟨h2, ?_⟩
  simp [h2]

/-! ### Claim theorems (first batch) -/

/-- C1 (amended): on the in-process fallback backend, `add_vector` appends
unconditionally, so two adds with the same `chunk_index` leave two
entries for that index (not one), and the returned vector ids are built
from the growing collection length, not from `(collection_id,
chunk_index)`: the two calls return different ids. -/
theorem add_vector_same_chunk_index_duplicates (store : Store) (cid : String)
    (v1 v2 : List ℝ) (p : Payload) :
    count_chunk_index (add_vector (add_vector store cid v1 p).1 cid v2 p).1 cid p.chunk_index =
        count_chunk_index store cid p.chunk_index + 2 ∧
      (add_vector store cid v1 p).2 =
        cid ++ "_vector_" ++ toString (((lookup_coll store cid).getD []).length + 1) ∧
      (add_vector (add_vector store cid v1 p).1 cid v2 p).2 =
        cid ++ "_vector_" ++ toString (((lookup_coll store cid).getD []).length + 2) := by
  obtain ⟨ha1, hb1⟩ := add_vector_spec store cid v1 p
  obtain ⟨ha2, hb2⟩ := add_vector_spec (add_vector store cid v1 p).1 cid v2 p
  rw [ha1] at ha2 hb2
  refine ⟨?_, hb1, ?_⟩
  · unfold count_chunk_index
    rw [ha2]
    simp [List.filter_append]
  · simpa using hb2

/-- C1 counterexample: re-adding chunk index 0 to collection `"c"` of the
fallback store leaves two stored entries for that chunk index, and the
two `add_vector` calls return the distinct ids `"c_vector_1"` and
`"c_vector_2"`, so the id is not derivable from `(collection_id,
chunk_index)` and the second add does not overwrite. -/
theorem add_vector_overwrite_cex :
    count_chunk_index
        (add_vector (add_vector [] "c" [] ⟨"x".data, 0⟩).1 "c" [] ⟨"x".data, 0⟩).1 "c" 0 = 2 ∧
      (add_vector ([] : Store) "c" [] ⟨"x".data, 0⟩).2 = "c_vector_1" ∧
      (add_vector (add_vector [] "c" [] ⟨"x".data, 0⟩).1 "c" [] ⟨"x".data, 0⟩).2 = "c_vector_2" := by
  exact ⟨rfl, rfl, rfl⟩

/-- C5: on the in-process fallback backend, searching a collection that
was never created, or one that exists but is empty, returns the empty
list (and in this total model in particular raises no error). -/
theorem vs_search_absent_or_empty (store : Store) (cid : String) (q : List ℝ) (k : Nat)
    (h : lookup_coll store cid = none ∨ lookup_coll store cid = some []) :
    vs_search store cid q k = [] := by
  rcases h with h | h <;> simp [vs_search, h]

/-- C5 witness: searching the empty store returns the empty list. -/
theorem vs_search_absent_or_empty_witness :
    vs_search [] "c" [] 3 = [] :=
  vs_search_absent_or_empty [] "c" [] 3 (Or.inl rfl)

/-- C8: `chunk_text` on any method other than `"recursive"`,
`"semantic"` and `"custom"` fails with the unknown-method `ValueError`
for every input text, producing no chunks. -/
theorem chunk_text_unknown_method (sem cust : List Char → List (List Char))
    (text : List Char) (method : String)
    (h1 : method ≠ "recursive") (h2 : method ≠ "semantic") (h3 : method ≠ "custom") :
    chunk_text sem cust text method = .error ("Unknown chunking method: " ++ method) := by
  simp [chunk_text, h1, h2, h3]

/-- C8 witness: the unknown method `"sliding"` is rejected. -/
theorem chunk_text_unknown_method_witness :
    chunk_text (fun _ => []) (fun _ => []) [] "sliding" =
      .error ("Unknown chunking method: " ++ "sliding") :=
  chunk_text_unknown_method _ _ _ _ (by decide) (by decide) (by decide)

/-- C4: when the vector-store search raises, `process_message` still
returns a response (the model is total): the fixed document-not-found
response with empty sources when the error message contains
`"doesn\x27t exist"` or `"Not found"`, and an explanatory error response
otherwise, in both cases with `tools_used = ["vector_search"]`. -/
theorem process_message_search_error (message : List Char) (cname : String) (e : List Char)
    (hc : cname ≠ "") :
    process_message message (some cname) (.error e) =
      (if contains_sub "doesn\x27t exist".data e || contains_sub "Not found".data e then
        ⟨doc_missing_msg, [], ["vector_search"]⟩
      else
        ⟨"An error occurred while searching the document: ".data ++ e,
         [], ["vector_search"]⟩ : AgentResponse) := by
  simp [process_message, hc]

/-- C4 witness: a `"Not found"` search error yields the fixed
document-not-found response. -/
theorem process_message_search_error_witness :
    process_message [] (some "c") (.error "Not found".data) =
      ⟨doc_missing_msg, [], ["vector_search"]⟩ := by
  rw [process_message_search_error [] "c" "Not found".data (by decide)]
  norm_num [show contains_sub "Not found".data "Not found".data = true from rfl]

/-- C10: with `collection_name` equal to `None`, `process_message` skips
the search entirely (the result ignores the search outcome), yet still
reports `tools_used = ["vector_search"]`, with empty sources and the
fixed could-not-find-relevant-information answer. -/
theorem process_message_no_collection (message : List Char)
    (sr : Except (List Char) (List Entry)) :
    process_message message none sr =
      ⟨"Context:\n".data ++ no_ctx_msg ++ "\n\nAnswer: ".data ++ apology_msg,
       [], ["vector_search"]⟩ := by
  simp [process_message, rag_reply]

/-- C9 counterexample: the fallback backend cosine similarity of the
zero vector with itself is `0 / (0 + 1e-8) = 0`, not within `1e-6` of
`1.0`, so the claim fails as stated for every vector. -/
theorem cosine_sim_self_zero_cex :
    cosine_sim [(0 : ℝ)] [0] = 0 ∧ ¬ |cosine_sim [(0 : ℝ)] [0] - 1| ≤ 1 / 10 ^ 6 := by
  have hd : dot_list [(0 : ℝ)] [0] = 0 := by simp [dot_list]
  have h : cosine_sim [(0 : ℝ)] [0] = 0 := by
    simp [cosine_sim, hd]
  refine ⟨h, ?_⟩
  rw [h]
  rw [show |(0 : ℝ) - 1| = 1 by rw [abs_sub_comm]; simp]
  norm_num

/-- C9 (amended): the fallback cosine similarity of a vector with itself
is within `1e-6` of `1.0` for every vector whose squared norm is at
least `1/100` (in particular for unit-norm embedding vectors); the
unqualified claim fails for (near-)zero vectors. -/
theorem cosine_sim_self_near_one (v : List ℝ) (h : (1 : ℝ) / 100 ≤ dot_list v v) :
    |cosine_sim v v - 1| ≤ 1 / 10 ^ 6 := by
  have hd0 : (0 : ℝ) < dot_list v v := lt_of_lt_of_le (by norm_num) h
  have hsq : norm_list v * norm_list v = dot_list v v :=
    Real.mul_self_sqrt (le_of_lt hd0)
  have hden : (0 : ℝ) < dot_list v v + 1 / 10 ^ 8 := by
    have : (0 : ℝ) < 1 / 10 ^ 8 := by norm_num
    linarith
  have hsim : cosine_sim v v = dot_list v v / (dot_list v v + 1 / 10 ^ 8) := by
    rw [cosine_sim, hsq]
  rw [hsim]
  have h1 : dot_list v v / (dot_list v v + 1 / 10 ^ 8) - 1 =
      -((1 / 10 ^ 8) / (dot_list v v + 1 / 10 ^ 8)) := by
    field_simp
  rw [h1, abs_neg, abs_of_nonneg (by positivity)]
  have h2 : (1 : ℝ) / 10 ^ 8 / (dot_list v v + 1 / 10 ^ 8) ≤ 1 / 10 ^ 8 / dot_list v v := by
    apply div_le_div_of_nonneg_left (by norm_num) hd0
    linarith [show (0 : ℝ) < 1 / 10 ^ 8 by norm_num]
  refine le_trans h2 ?_
  rw [div_le_iff₀ hd0]
  have := mul_le_mul_of_nonneg_left h (show (0 : ℝ) ≤ 1 / 10 ^ 6 by norm_num)
  linarith

/-- C9 witness: the one-dimensional unit vector `[1]` satisfies the
squared-norm bound and its self-similarity is within `1e-6` of `1`. -/
theorem cosine_sim_self_near_one_witness :
    (1 : ℝ) / 100 ≤ dot_list [(1 : ℝ)] [1] ∧
      |cosine_sim [(1 : ℝ)] [1] - 1| ≤ 1 / 10 ^ 6 :=
  ⟨by norm_num [dot_list], cosine_sim_self_near_one [1] (by norm_num [dot_list])⟩

/-! ### Claim C7: simple_answer refinement -/

theorem foldr_max_attained : ∀ l : List Nat, l.foldr max 0 = 0 ∨ l.foldr max 0 ∈ l := by
  intro l
  induction l with
  | nil => exact Or.inl rfl
  | cons x tl ih =>
      simp only [List.foldr_cons]
      rcases Nat.le_total x (tl.foldr max 0) with hx | hx
      · rw [Nat.max_eq_right hx]
        rcases ih with h | h
        · exact Or.inl h
        · exact Or.inr (List.mem_cons_of_mem _ h)
      · rw [Nat.max_eq_left hx]
        exact Or.inr (List.mem_cons_self _ _)

theorem inter_score_nil (qws : List (List Char)) : inter_score qws [] = 0 := rfl

theorem best_fold (qws : List (List Char)) :
    ∀ (ss : List (List Char)) (b : List Char) (k : Nat),
      ss.foldl (best_step qws) (b, k) =
        if (ss.map (inter_score qws)).foldr max 0 ≤ k then (b, k)
        else
          ((ss.find? (fun s => inter_score qws s == (ss.map (inter_score qws)).foldr max 0)).getD b,
           (ss.map (inter_score qws)).foldr max 0) := by
  intro ss
  induction ss with
  | nil => intro b k; simp
  | cons s tl ih =>
      intro b k
      have hM : ((s :: tl).map (inter_score qws)).foldr max 0 =
          max (inter_score qws s) ((tl.map (inter_score qws)).foldr max 0) := by
        simp
      rw [List.foldl_cons]
      by_cases hA : k < inter_score qws s
      · have hstep : best_step qws (b, k) s = (s, inter_score qws s) := by
          simp [best_step, hA]
        rw [hstep, ih]
        by_cases hA1 : (tl.map (inter_score qws)).foldr max 0 ≤ inter_score qws s
        · have hM1 : ((s :: tl).map (inter_score qws)).foldr max 0 = inter_score qws s := by
            rw [hM]; exact Nat.max_eq_left hA1
          rw [if_pos hA1, if_neg (by rw [hM1]; omega), hM1]
          rw [List.find?_cons_of_pos _ (by simp)]
          simp
        · push_neg at hA1
          have hM1 : ((s :: tl).map (inter_score qws)).foldr max 0 =
              (tl.map (inter_score qws)).foldr max 0 := by
            rw [hM]; exact Nat.max_eq_right (le_of_lt hA1)
          rcases foldr_max_attained (tl.map (inter_score qws)) with h0 | hmem
          · omega
          · obtain ⟨t, htmem, htsc⟩ := List.mem_map.mp hmem
            have hsome : (tl.find? (fun u => inter_score qws u ==
                (tl.map (inter_score qws)).foldr max 0)).isSome := by
              rw [List.find?_isSome]
              exact ⟨t, htmem, by simp [htsc]⟩
            obtain ⟨w, hw⟩ := Option.isSome_iff_exists.mp hsome
            rw [if_neg (by omega), if_neg (by rw [hM1]; omega), hM1]
            rw [List.find?_cons_of_neg _ (by simp; omega), hw]
            simp
      · push_neg at hA
        have hstep : best_step qws (b, k) s = (b, k) := by
          simp only [best_step]
          rw [if_neg (by omega)]
        rw [hstep, ih]
        by_cases hB1 : (tl.map (inter_score qws)).foldr max 0 ≤ k
        · rw [if_pos hB1, if_pos (by rw [hM]; omega)]
        · push_neg at hB1
          have hM1 : ((s :: tl).map (inter_score qws)).foldr max 0 =
              (tl.map (inter_score qws)).foldr max 0 := by
            rw [hM]; omega
          rw [if_neg (by omega), if_neg (by rw [hM1]; omega), hM1]
          rw [List.find?_cons_of_neg _ (by simp; omega)]

/-- C7 (amended): for every question and every context that is non-empty
and differs from the sentinel `"No relevant context found."`,
`simple_answer` returns the whitespace-stripped form of the first
sentence maximizing the shared-word count with the question's lowercase
word set (ties by first occurrence), and when no sentence shares a word,
the first 200 characters of the context with `"..."` appended when the
context is longer than 200 characters. -/
theorem simple_answer_eq_claim_answer (question context : List Char)
    (h1 : context ≠ []) (h2 : context ≠ no_ctx_msg) :
    simple_answer question context = claim_answer question context := by
  unfold simple_answer claim_answer claim_best_sentence
  rw [if_neg (by tauto)]
  rw [best_fold (py_words (to_lower question)) (lb_split context) [] 0]
  by_cases hm : ((lb_split context).map (inter_score (py_words (to_lower question)))).foldr max 0 = 0
  · simp [hm]
  · have hle : ¬ ((lb_split context).map
        (inter_score (py_words (to_lower question)))).foldr max 0 ≤ 0 := by omega
    rcases foldr_max_attained
        ((lb_split context).map (inter_score (py_words (to_lower question)))) with h0 | hmem
    · exact absurd h0 hm
    obtain ⟨t, htmem, htsc⟩ := List.mem_map.mp hmem
    have hsome : ((lb_split context).find? (fun u =>
        inter_score (py_words (to_lower question)) u ==
          ((lb_split context).map (inter_score (py_words (to_lower question)))).foldr max 0)).isSome := by
      rw [List.find?_isSome]
      exact ⟨t, htmem, by simp [htsc]⟩
    obtain ⟨w, hw⟩ := Option.isSome_iff_exists.mp hsome
    have hwsc : inter_score (py_words (to_lower question)) w =
        ((lb_split context).map (inter_score (py_words (to_lower question)))).foldr max 0 := by
      have := List.find?_some hw
      simpa using this
    have hwne : w ≠ [] := by
      intro hcon
      rw [hcon, inter_score_nil] at hwsc
      exact hm hwsc.symm
    rw [if_neg hle, if_neg hm, hw]
    simp [hwne]

/-- C7 counterexample: with question `"b"` and context `"a. \nb q"`, the
code answers `"b q"`, the stripped form of the best sentence `"\nb q"`,
not that sentence verbatim as the claim states. -/
theorem simple_answer_strips_cex :
    simple_answer "b".data "a. \nb q".data = "b q".data ∧
      claim_answer_verbatim "b".data "a. \nb q".data = ('\n' :: "b q".data) ∧
      simple_answer "b".data "a. \nb q".data ≠ claim_answer_verbatim "b".data "a. \nb q".data := by
  refine ⟨by decide, by decide, by decide⟩

/-- C7 witness: a concrete non-sentinel context on which `simple_answer`
agrees with the claim's selection rule. -/
theorem simple_answer_eq_claim_answer_witness :
    simple_answer "what is foo".data "Foo is a bar. Nothing else.".data =
      claim_answer "what is foo".data "Foo is a bar. Nothing else.".data :=
  simple_answer_eq_claim_answer _ _ (by decide) (by decide)

/-! ### Claim C2: chunk length bounds -/

theorem length_dropWhile_le (p : Char → Bool) :
    ∀ l : List Char, (l.dropWhile p).length ≤ l.length := by
  intro l
  induction l with
  | nil => simp
  | cons c r ih =>
      by_cases h : p c
      · rw [List.dropWhile_cons_of_pos h]
        exact le_trans ih (by simp)
      · rw [List.dropWhile_cons_of_neg h]

theorem py_strip_length_le (l : List Char) : (py_strip l).length ≤ l.length := by
  unfold py_strip
  rw [List.length_reverse]
  refine le_trans (length_dropWhile_le _ _) ?_
  rw [List.length_reverse]
  exact length_dropWhile_le _ _

theorem py_tail_length_le (n : Nat) (l : List Char) : (py_tail n l).length ≤ n := by
  unfold py_tail
  by_cases h : n < l.length
  · rw [if_pos h, List.length_drop]
    omega
  · rw [if_neg h]
    simp

theorem le_foldr_max : ∀ (l : List Nat) (a : Nat), a ∈ l → a ≤ l.foldr max 0 := by
  intro l
  induction l with
  | nil => intro a h; cases h
  | cons x tl ih =>
      intro a h
      rcases List.mem_cons.mp h with h | h
      · subst h; simp
      · exact le_trans (ih a h) (by simp)

theorem word_len_le_max_word_len (text p s w : List Char)
    (hp : p ∈ split_paras text) (hs : s ∈ split_sents p) (hw : w ∈ py_words s) :
    w.length ≤ max_word_len text := by
  apply le_foldr_max
  apply List.mem_map_of_mem List.length
  unfold all_words
  rw [List.mem_flatten]
  refine ⟨((split_sents p).map py_words).flatten, ?_, ?_⟩
  · exact List.mem_map_of_mem _ hp
  · rw [List.mem_flatten]
    exact ⟨py_words s, List.mem_map_of_mem _ hs, hw⟩

theorem word_step_bound (cs ov L : Nat) (st : List (List Char) × List Char)
    (w : List Char) (hw : w.length ≤ L)
    (h1 : ∀ c ∈ st.1, c.length ≤ max (cs + 2) (ov + 1 + L))
    (h2 : st.2.length ≤ max (cs + 1) (ov + 1 + L)) :
    (∀ c ∈ (word_step cs ov st w).1, c.length ≤ max (cs + 2) (ov + 1 + L)) ∧
      (word_step cs ov st w).2.length ≤ max (cs + 1) (ov + 1 + L) := by
  unfold word_step
  by_cases hov : cs < st.2.length + w.length
  · rw [if_pos hov]
    by_cases hne : st.2 ≠ []
    · rw [if_pos hne]
      constructor
      · intro c hc
        rcases List.mem_append.mp hc with hc | hc
        · exact h1 c hc
        · rw [List.mem_singleton.mp hc]
          refine le_trans (py_strip_length_le st.2) (le_trans h2 ?_)
          omega
      · by_cases ht : py_tail ov st.2 = []
        · simp only [ht, if_pos]
          omega
        · simp only [ht, if_neg, reduceIte]
          have := py_tail_length_le ov st.2
          rw [List.length_append]
          simp only [List.length_cons]
          omega
    · rw [if_neg hne]
      push_neg at hne
      constructor
      · exact h1
      · simp only [hne, reduceIte]
        omega
  · rw [if_neg hov]
    constructor
    · exact h1
    · by_cases hz : st.2 = []
      · simp only [hz, reduceIte]
        simp
        omega
      · simp only [hz, reduceIte]
        rw [List.length_append]
        simp only [List.length_cons]
        push_neg at hov
        omega

theorem word_fold_bound (cs ov L : Nat) (ws : List (List Char))
    (hws : ∀ w ∈ ws, w.length ≤ L) :
    ∀ st : List (List Char) × List Char,
      (∀ c ∈ st.1, c.length ≤ max (cs + 2) (ov + 1 + L)) →
      st.2.length ≤ max (cs + 1) (ov + 1 + L) →
      (∀ c ∈ (ws.foldl (word_step cs ov) st).1, c.length ≤ max (cs + 2) (ov + 1 + L)) ∧
        (ws.foldl (word_step cs ov) st).2.length ≤ max (cs + 1) (ov + 1 + L) := by
  induction ws with
  | nil => intro st h1 h2; exact ⟨h1, h2⟩
  | cons w tl ih =>
      intro st h1 h2
      rw [List.foldl_cons]
      have hw : w.length ≤ L := hws w (List.mem_cons_self _ _)
      obtain ⟨g1, g2⟩ := word_step_bound cs ov L st w hw h1 h2
      exact ih (fun u hu => hws u (List.mem_cons_of_mem _ hu)) _ g1 g2

theorem sent_step_bound (cs ov L : Nat) (st : List (List Char) × List Char)
    (s : List Char) (hs : ∀ w ∈ py_words s, w.length ≤ L)
    (h1 : ∀ c ∈ st.1, c.length ≤ max (cs + 2) (ov + 1 + L))
    (h2 : st.2.length ≤ max (cs + 2) (ov + 1 + L)) :
    (∀ c ∈ (sent_step cs ov st s).1, c.length ≤ max (cs + 2) (ov + 1 + L)) ∧
      (sent_step cs ov st s).2.length ≤ max (cs + 2) (ov + 1 + L) := by
  unfold sent_step
  by_cases hov : cs < st.2.length + s.length
  · rw [if_pos hov]
    have hst'1 : ∀ c ∈ (if st.2 ≠ [] then (st.1 ++ [py_strip st.2], py_tail ov st.2) else st).1,
        c.length ≤ max (cs + 2) (ov + 1 + L) := by
      by_cases hne : st.2 ≠ []
      · rw [if_pos hne]
        intro c hc
        rcases List.mem_append.mp hc with hc | hc
        · exact h1 c hc
        · rw [List.mem_singleton.mp hc]
          exact le_trans (py_strip_length_le st.2) h2
      · rw [if_neg hne]
        exact h1
    have hst'2 : (if st.2 ≠ [] then (st.1 ++ [py_strip st.2], py_tail ov st.2) else st).2.length ≤
        max ov st.2.length := by
      by_cases hne : st.2 ≠ []
      · rw [if_pos hne]
        exact le_trans (py_tail_length_le ov st.2) (le_max_left _ _)
      · rw [if_neg hne]
        exact le_max_right _ _
    by_cases hlong : cs < s.length
    · rw [if_pos hlong]
      obtain ⟨g1, g2⟩ := word_fold_bound cs ov L (py_words s) hs
        ((if st.2 ≠ [] then (st.1 ++ [py_strip st.2], py_tail ov st.2) else st).1, [])
        hst'1 (by simp)
      refine ⟨g1, ?_⟩
      by_cases hr : ((py_words s).foldl (word_step cs ov)
          ((if st.2 ≠ [] then (st.1 ++ [py_strip st.2], py_tail ov st.2) else st).1, [])).2 ≠ []
      · simp only [if_pos hr]
        exact le_trans g2 (by omega)
      · simp only [if_neg hr]
        refine le_trans hst'2 ?_
        have : st.2.length ≤ max (cs + 2) (ov + 1 + L) := h2
        omega
    · rw [if_neg hlong]
      push_neg at hlong
      refine ⟨hst'1, ?_⟩
      show s.length ≤ max (cs + 2) (ov + 1 + L)
      omega
  · rw [if_neg hov]
    push_neg at hov
    refine ⟨h1, ?_⟩
    by_cases hz : st.2 = []
    · simp only [hz, reduceIte]
      simp
      omega
    · simp only [hz, reduceIte]
      rw [List.length_append]
      simp only [List.length_cons]
      omega

theorem sent_fold_bound (cs ov L : Nat) (ss : List (List Char))
    (hss : ∀ s ∈ ss, ∀ w ∈ py_words s, w.length ≤ L) :
    ∀ st : List (List Char) × List Char,
      (∀ c ∈ st.1, c.length ≤ max (cs + 2) (ov + 1 + L)) →
      st.2.length ≤ max (cs + 2) (ov + 1 + L) →
      (∀ c ∈ (ss.foldl (sent_step cs ov) st).1, c.length ≤ max (cs + 2) (ov + 1 + L)) ∧
        (ss.foldl (sent_step cs ov) st).2.length ≤ max (cs + 2) (ov + 1 + L) := by
  induction ss with
  | nil => intro st h1 h2; exact ⟨h1, h2⟩
  | cons s tl ih =>
      intro st h1 h2
      rw [List.foldl_cons]
      obtain ⟨g1, g2⟩ := sent_step_bound cs ov L st s (hss s (List.mem_cons_self _ _)) h1 h2
      exact ih (fun u hu => hss u (List.mem_cons_of_mem _ hu)) _ g1 g2

theorem split_long_text_bound (cs ov L : Nat) (text : List Char)
    (h : ∀ s ∈ split_sents text, ∀ w ∈ py_words s, w.length ≤ L) :
    ∀ c ∈ split_long_text cs ov text, c.length ≤ max (cs + 2) (ov + 1 + L) := by
  unfold split_long_text
  obtain ⟨g1, g2⟩ := sent_fold_bound cs ov L (split_sents text) h ([], [])
    (by intro c hc; cases hc) (by simp)
  by_cases hr : ((split_sents text).foldl (sent_step cs ov) ([], [])).2 ≠ []
  · rw [if_pos hr]
    intro c hc
    rcases List.mem_append.mp hc with hc | hc
    · exact g1 c hc
    · rw [List.mem_singleton.mp hc]
      exact le_trans (py_strip_length_le _) g2
  · rw [if_neg hr]
    exact g1

theorem para_step_bound (cs ov L : Nat) (st : List (List Char) × List Char)
    (p : List Char) (hp : ∀ s ∈ split_sents p, ∀ w ∈ py_words s, w.length ≤ L)
    (h1 : ∀ c ∈ st.1, c.length ≤ max (cs + 2) (ov + 1 + L))
    (h2 : st.2.length ≤ cs + 2) :
    (∀ c ∈ (para_step cs ov st p).1, c.length ≤ max (cs + 2) (ov + 1 + L)) ∧
      (para_step cs ov st p).2.length ≤ cs + 2 := by
  unfold para_step
  by_cases hov : cs < st.2.length + p.length
  · rw [if_pos hov]
    have hst'1 : ∀ c ∈ (if st.2 ≠ [] then (st.1 ++ [py_strip st.2], py_tail ov st.2) else st).1,
        c.length ≤ max (cs + 2) (ov + 1 + L) := by
      by_cases hne : st.2 ≠ []
      · rw [if_pos hne]
        intro c hc
        rcases List.mem_append.mp hc with hc | hc
        · exact h1 c hc
        · rw [List.mem_singleton.mp hc]
          refine le_trans (py_strip_length_le st.2) (le_trans h2 ?_)
          omega
      · rw [if_neg hne]
        exact h1
    by_cases hlong : cs < p.length
    · rw [if_pos hlong]
      refine ⟨?_, by simp⟩
      intro c hc
      rcases List.mem_append.mp hc with hc | hc
      · exact hst'1 c hc
      · exact split_long_text_bound cs ov L p hp c hc
    · rw [if_neg hlong]
      push_neg at hlong
      refine ⟨hst'1, ?_⟩
      show p.length ≤ cs + 2
      omega
  · rw [if_neg hov]
    push_neg at hov
    refine ⟨h1, ?_⟩
    by_cases hz : st.2 = []
    · simp only [hz, reduceIte]
      show p.length ≤ cs + 2
      omega
    · simp only [hz, reduceIte]
      rw [List.length_append]
      simp only [List.length_cons]
      omega

theorem para_fold_bound (cs ov L : Nat) (ps : List (List Char))
    (hps : ∀ p ∈ ps, ∀ s ∈ split_sents p, ∀ w ∈ py_words s, w.length ≤ L) :
    ∀ st : List (List Char) × List Char,
      (∀ c ∈ st.1, c.length ≤ max (cs + 2) (ov + 1 + L)) →
      st.2.length ≤ cs + 2 →
      (∀ c ∈ (ps.foldl (para_step cs ov) st).1, c.length ≤ max (cs + 2) (ov + 1 + L)) ∧
        (ps.foldl (para_step cs ov) st).2.length ≤ cs + 2 := by
  induction ps with
  | nil => intro st h1 h2; exact ⟨h1, h2⟩
  | cons p tl ih =>
      intro st h1 h2
      rw [List.foldl_cons]
      obtain ⟨g1, g2⟩ := para_step_bound cs ov L st p (hps p (List.mem_cons_self _ _)) h1 h2
      exact ih (fun u hu => hps u (List.mem_cons_of_mem _ hu)) _ g1 g2

/-- C2 (amended): every chunk produced by the recursive strategy at the
configured sizes has character length at most
`max (CHUNK_SIZE + CHUNK_OVERLAP) (CHUNK_OVERLAP + 1 + L)` where `L` is
the length of the longest whitespace-delimited word token of the text;
the unconditional `CHUNK_SIZE + CHUNK_OVERLAP` bound of the claim fails
once a single word longer than the chunk size appears, because the word
loop never hard-splits an oversized word. -/
theorem recursive_chunking_length_bound (text c : List Char)
    (hc : c ∈ recursive_chunking text) :
    c.length ≤ max (CHUNK_SIZE + CHUNK_OVERLAP) (CHUNK_OVERLAP + 1 + max_word_len text) := by
  have hwords : ∀ p ∈ split_paras text, ∀ s ∈ split_sents p, ∀ w ∈ py_words s,
      w.length ≤ max_word_len text :=
    fun p hp s hs w hw => word_len_le_max_word_len text p s w hp hs hw
  obtain ⟨g1, g2⟩ := para_fold_bound CHUNK_SIZE CHUNK_OVERLAP (max_word_len text)
    (split_paras text) hwords ([], []) (fun u hu => absurd hu (List.not_mem_nil u)) (by simp)
  unfold recursive_chunking at hc
  have hc' := (List.mem_filter.mp hc).1
  have hbound : c.length ≤ max (CHUNK_SIZE + 2) (CHUNK_OVERLAP + 1 + max_word_len text) := by
    by_cases hr : ((split_paras text).foldl (para_step CHUNK_SIZE CHUNK_OVERLAP) ([], [])).2 ≠ []
    · rw [if_pos hr] at hc'
      rcases List.mem_append.mp hc' with h | h
      · exact g1 c h
      · rw [List.mem_singleton.mp h]
        refine le_trans (py_strip_length_le _) (le_trans g2 ?_)
        omega
    · rw [if_neg hr] at hc'
      exact g1 c hc'
  refine le_trans hbound ?_
  have : CHUNK_SIZE + 2 ≤ CHUNK_SIZE + CHUNK_OVERLAP := by
    unfold CHUNK_OVERLAP
    omega
  omega

theorem split_runs_nil (p : Char → Bool) (m : Bool) : split_runs p m [] = [[]] := by
  cases m <;> rfl

theorem split_runs_true_cons (p : Char → Bool) (c : Char) (r : List Char) :
    split_runs p true (c :: r) =
      if p c then split_runs p true r else consHead c (split_runs p false r) := rfl

theorem split_runs_false_cons (p : Char → Bool) (c : Char) (r : List Char) :
    split_runs p false (c :: r) =
      if p c then [] :: split_runs p true r else consHead c (split_runs p false r) := rfl

theorem split_runs_ne_nil (p : Char → Bool) : ∀ (m : Bool) (l : List Char),
    split_runs p m l ≠ [] := by
  intro m l
  induction l generalizing m with
  | nil => rw [split_runs_nil]; simp
  | cons c r ih =>
      cases m with
      | true =>
          rw [split_runs_true_cons]
          by_cases h : p c
          · rw [if_pos h]; exact ih true
          · rw [if_neg h]
            unfold consHead
            cases split_runs p false r <;> simp
      | false =>
          rw [split_runs_false_cons]
          by_cases h : p c
          · rw [if_pos h]; simp
          · rw [if_neg h]
            unfold consHead
            cases split_runs p false r <;> simp

theorem split_runs_no_delim (p : Char → Bool) :
    ∀ l : List Char, (∀ c ∈ l, p c = false) → split_runs p false l = [l] := by
  intro l
  induction l with
  | nil => intro _; exact split_runs_nil p false
  | cons c r ih =>
      intro h
      rw [split_runs_false_cons]
      rw [if_neg (by simp [h c (List.mem_cons_self _ _)])]
      rw [ih (fun u hu => h u (List.mem_cons_of_mem _ hu))]
      rfl

theorem split_runs_true_no_delim (p : Char → Bool) (l : List Char) (hne : l ≠ [])
    (h : ∀ c ∈ l, p c = false) : split_runs p true l = [l] := by
  cases l with
  | nil => exact absurd rfl hne
  | cons c r =>
      rw [split_runs_true_cons]
      rw [if_neg (by simp [h c (List.mem_cons_self _ _)])]
      rw [split_runs_no_delim p r (fun u hu => h u (List.mem_cons_of_mem _ hu))]
      rfl

theorem split_runs_append_no_delim (p : Char → Bool) :
    ∀ (x l : List Char), (∀ c ∈ x, p c = false) →
      split_runs p false (x ++ l) =
        ((x ++ (split_runs p false l).headD []) :: (split_runs p false l).tail) := by
  intro x
  induction x with
  | nil =>
      intro l _
      obtain ⟨y, ys, hy⟩ : ∃ y ys, split_runs p false l = y :: ys := by
        cases hsp : split_runs p false l with
        | nil => exact absurd hsp (split_runs_ne_nil p false l)
        | cons y ys => exact ⟨y, ys, rfl⟩
      simp [hy]
  | cons c xs ih =>
      intro l h
      rw [List.cons_append, split_runs_false_cons]
      rw [if_neg (by simp [h c (List.mem_cons_self _ _)])]
      rw [ih l (fun u hu => h u (List.mem_cons_of_mem _ hu))]
      rfl

theorem foldl_para_step_ch_no_nl :
    ∀ (l : List Char), (∀ c ∈ l, c ≠ '\n') →
      ∀ ps cur, l.foldl para_step_ch ⟨ps, cur, false⟩ = ⟨ps, cur ++ l, false⟩ := by
  intro l
  induction l with
  | nil => intro _ ps cur; simp
  | cons c r ih =>
      intro h ps cur
      rw [List.foldl_cons]
      have hc : c ≠ '\n' := h c (List.mem_cons_self _ _)
      have hstep : para_step_ch ⟨ps, cur, false⟩ c = ⟨ps, cur ++ [c], false⟩ := by
        unfold para_step_ch
        simp [hc]
      rw [hstep, ih (fun u hu => h u (List.mem_cons_of_mem _ hu)) ps (cur ++ [c])]
      simp

theorem split_paras_no_nl (l : List Char) (h : ∀ c ∈ l, c ≠ '\n') :
    split_paras l = [l] := by
  unfold split_paras
  rw [foldl_para_step_ch_no_nl l h [] []]
  simp

theorem py_strip_no_ws (l : List Char) (h : ∀ c ∈ l, pyIsSpace c = false) :
    py_strip l = l := by
  have hdrop : ∀ m : List Char, (∀ c ∈ m, pyIsSpace c = false) → m.dropWhile pyIsSpace = m := by
    intro m hm
    cases m with
    | nil => rfl
    | cons c r => exact List.dropWhile_cons_of_neg (by simp [hm c (List.mem_cons_self _ _)])
  unfold py_strip
  rw [hdrop l h, hdrop l.reverse (fun c hc => h c (List.mem_reverse.mp hc)), List.reverse_reverse]

/-- Chunking of a single oversized delimiter-free blob: the whole blob
comes back as one (oversized) chunk, because the word loop never splits
inside a word. -/
theorem recursive_chunking_single_blob (l : List Char)
    (hnl : ∀ c ∈ l, c ≠ '\n') (hpu : ∀ c ∈ l, isPunct c = false)
    (hws : ∀ c ∈ l, pyIsSpace c = false) (hlong : CHUNK_SIZE < l.length) :
    recursive_chunking l = [l] := by
  have hne : l ≠ [] := by
    intro hcon
    rw [hcon] at hlong
    simp [CHUNK_SIZE] at hlong
  have h1 : split_paras l = [l] := split_paras_no_nl l hnl
  have h2 : split_sents l = [l] := split_runs_no_delim isPunct l hpu
  have h3 : py_words l = [l] := by
    unfold py_words
    rw [split_runs_no_delim pyIsSpace l hws]
    simp [hne]
  have h4 : py_strip l = l := py_strip_no_ws l hws
  have hword : (py_words l).foldl (word_step CHUNK_SIZE CHUNK_OVERLAP) (([] : List (List Char)), []) =
      ([], l) := by
    rw [h3]
    simp [word_step, hlong]
  have hsent : split_long_text CHUNK_SIZE CHUNK_OVERLAP l = [l] := by
    unfold split_long_text
    rw [h2]
    simp only [List.foldl_cons, List.foldl_nil]
    unfold sent_step
    simp only [List.length_nil, Nat.zero_add, hlong, if_pos, ne_eq, not_true_eq_false,
      reduceIte]
    simp [hword, hne, h4, hlong]
  unfold recursive_chunking
  rw [h1]
  simp only [List.foldl_cons, List.foldl_nil]
  unfold para_step
  simp [hlong, hsent, hne, h4]

/-- C2 counterexample: a single 1300-character word (one paragraph, no
sentence punctuation, no whitespace) is returned as one 1300-character
chunk, exceeding `CHUNK_SIZE + CHUNK_OVERLAP = 1200`. -/
theorem recursive_chunking_bound_cex :
    recursive_chunking (List.replicate 1300 'a') = [List.replicate 1300 'a'] ∧
      ¬ ∀ c ∈ recursive_chunking (List.replicate 1300 'a'),
          c.length ≤ CHUNK_SIZE + CHUNK_OVERLAP := by
  have hmem : ∀ c ∈ List.replicate 1300 'a', c = 'a' := fun c hc => List.eq_of_mem_replicate hc
  have hres : recursive_chunking (List.replicate 1300 'a') = [List.replicate 1300 'a'] := by
    apply recursive_chunking_single_blob
    · intro c hc; rw [hmem c hc]; decide
    · intro c hc; rw [hmem c hc]; rfl
    · intro c hc; rw [hmem c hc]; rfl
    · simp [CHUNK_SIZE]
  refine ⟨hres, ?_⟩
  intro hall
  have := hall (List.replicate 1300 'a') (by rw [hres]; exact List.mem_singleton_self _)
  simp [CHUNK_SIZE, CHUNK_OVERLAP] at this

/-- C2 witness: on the two-character text `"ab"` the single chunk `"ab"`
satisfies the amended bound. -/
theorem recursive_chunking_length_bound_witness :
    "ab".data ∈ recursive_chunking "ab".data ∧
      ("ab".data).length ≤
        max (CHUNK_SIZE + CHUNK_OVERLAP) (CHUNK_OVERLAP + 1 + max_word_len "ab".data) :=
  ⟨by decide, recursive_chunking_length_bound "ab".data "ab".data (by decide)⟩

/-! ### Claim C3: preservation of non-whitespace non-punctuation characters -/

theorem count_cons_eq (ch c : Char) (r : List Char) :
    (c :: r).count ch = r.count ch + (if ch = c then 1 else 0) := by
  by_cases h : ch = c
  · rw [h, List.count_cons_self, if_pos rfl]
  · rw [List.count_cons_of_ne h, if_neg h]
    omega

theorem count_dropWhile (ch : Char) (p : Char → Bool) (hp : p ch = false) :
    ∀ l : List Char, (l.dropWhile p).count ch = l.count ch := by
  intro l
  induction l with
  | nil => rfl
  | cons c r ih =>
      by_cases h : p c
      · rw [List.dropWhile_cons_of_pos h, ih]
        have hne : ch ≠ c := by
          intro hcon
          rw [hcon, h] at hp
          cases hp
        rw [List.count_cons_of_ne hne]
      · rw [List.dropWhile_cons_of_neg h]

theorem count_py_strip (ch : Char) (hch : pyIsSpace ch = false) (l : List Char) :
    (py_strip l).count ch = l.count ch := by
  unfold py_strip
  rw [List.count_reverse, count_dropWhile ch pyIsSpace hch, List.count_reverse,
    count_dropWhile ch pyIsSpace hch]

theorem count_split_runs (p : Char → Bool) (ch : Char) (hch : p ch = false) :
    ∀ (l : List Char) (m : Bool),
      ((split_runs p m l).map (List.count ch)).sum = l.count ch := by
  intro l
  induction l with
  | nil => intro m; rw [split_runs_nil]; simp
  | cons c r ih =>
      intro m
      by_cases h : p c
      · have hne : ch ≠ c := by
          intro hcon
          rw [hcon, h] at hch
          cases hch
        cases m with
        | true =>
            rw [split_runs_true_cons, if_pos h, ih true, count_cons_eq]
            simp [hne]
        | false =>
            rw [split_runs_false_cons, if_pos h]
            simp only [List.map_cons, List.sum_cons, List.count_nil]
            rw [ih true, count_cons_eq]
            simp [hne]
      · obtain ⟨y, ys, hy⟩ : ∃ y ys, split_runs p false r = y :: ys := by
          cases hsp : split_runs p false r with
          | nil => exact absurd hsp (split_runs_ne_nil p false r)
          | cons y ys => exact ⟨y, ys, rfl⟩
        have hgoal : ((consHead c (split_runs p false r)).map (List.count ch)).sum =
            (c :: r).count ch := by
          rw [hy]
          unfold consHead
          simp only [List.map_cons, List.sum_cons]
          rw [count_cons_eq ch c y, count_cons_eq ch c r]
          have hr := ih false
          rw [hy] at hr
          simp only [List.map_cons, List.sum_cons] at hr
          omega
        cases m with
        | true => rw [split_runs_true_cons, if_neg h]; exact hgoal
        | false => rw [split_runs_false_cons, if_neg h]; exact hgoal

theorem sum_counts_filter_ne_nil (ch : Char) (ll : List (List Char)) :
    ((ll.filter (· ≠ [])).map (List.count ch)).sum = (ll.map (List.count ch)).sum := by
  induction ll with
  | nil => rfl
  | cons x xs ih =>
      simp only [ne_eq, decide_not] at ih ⊢
      by_cases h : x = []
      · subst h
        simp [List.filter_cons, ih]
      · simp [List.filter_cons, h, ih]

theorem count_py_words (ch : Char) (hch : pyIsSpace ch = false) (s : List Char) :
    ((py_words s).map (List.count ch)).sum = s.count ch := by
  unfold py_words
  rw [sum_counts_filter_ne_nil, count_split_runs pyIsSpace ch hch]

theorem count_split_sents (ch : Char) (hch : isPunct ch = false) (s : List Char) :
    ((split_sents s).map (List.count ch)).sum = s.count ch := by
  unfold split_sents
  rw [count_split_runs isPunct ch hch]

theorem count_para_fold_ch (ch : Char) (hch : ch ≠ '\n') :
    ∀ (l : List Char) (st : PSt),
      ((l.foldl para_step_ch st).ps.map (List.count ch)).sum +
          (l.foldl para_step_ch st).cur.count ch =
        (st.ps.map (List.count ch)).sum + st.cur.count ch + l.count ch := by
  intro l
  induction l with
  | nil => intro st; simp
  | cons c r ih =>
      intro st
      rw [List.foldl_cons, ih, count_cons_eq ch c r]
      unfold para_step_ch
      by_cases hnl : st.nl
      · rw [if_pos hnl]
        by_cases hc : c = '\n'
        · rw [if_pos hc]
          simp only [List.map_append, List.map_cons, List.map_nil, List.sum_append,
            List.sum_cons, List.sum_nil, List.count_nil]
          have hne : ch ≠ c := by rw [hc]; exact hch
          rw [if_neg hne]
          omega
        · rw [if_neg hc]
          simp only [List.count_append]
          have h1 : (['\n', c] : List Char).count ch =
              (if ch = c then 1 else 0) := by
            rw [count_cons_eq, count_cons_eq, List.count_nil, if_neg hch]
            omega
          rw [h1]
          omega
      · rw [if_neg hnl]
        by_cases hc : c = '\n'
        · rw [if_pos hc]
          have hne : ch ≠ c := by rw [hc]; exact hch
          rw [if_neg hne]
          simp
        · rw [if_neg hc]
          simp only [List.count_append]
          have h1 : ([c] : List Char).count ch = (if ch = c then 1 else 0) := by
            rw [count_cons_eq, List.count_nil]
            omega
          rw [h1]
          omega

theorem count_split_paras (ch : Char) (hch : ch ≠ '\n') (l : List Char) :
    ((split_paras l).map (List.count ch)).sum = l.count ch := by
  unfold split_paras
  have h := count_para_fold_ch ch hch l ⟨[], [], false⟩
  simp only [List.map_nil, List.sum_nil, List.count_nil, Nat.zero_add] at h
  simp only [List.map_append, List.sum_append, List.map_cons, List.map_nil, List.sum_cons,
    List.sum_nil]
  by_cases hnl : (l.foldl para_step_ch ⟨[], [], false⟩).nl
  · rw [if_pos hnl]
    rw [List.count_append]
    have h2 : (['\n'] : List Char).count ch = 0 := by
      rw [List.count_cons_of_ne hch, List.count_nil]
    rw [h2]
    omega
  · rw [if_neg hnl]
    omega

theorem word_step_count (cs ov : Nat) (ch : Char) (hws : pyIsSpace ch = false)
    (st : List (List Char) × List Char) (w : List Char) :
    (st.1.map (List.count ch)).sum + st.2.count ch + w.count ch ≤
      ((word_step cs ov st w).1.map (List.count ch)).sum +
        (word_step cs ov st w).2.count ch := by
  have h1 : (py_strip st.2).count ch = st.2.count ch := count_py_strip ch hws st.2
  have hsp : ch ≠ ' ' := by
    intro hcon
    rw [hcon] at hws
    simp [pyIsSpace] at hws
  unfold word_step
  by_cases hov : cs < st.2.length + w.length
  · rw [if_pos hov]
    by_cases hne : st.2 ≠ []
    · rw [if_pos hne]
      by_cases ht : py_tail ov st.2 = []
      · simp only [ht, reduceIte, List.map_append, List.sum_append, List.map_cons,
          List.sum_cons, List.map_nil, List.sum_nil, h1]
        omega
      · simp only [ht, reduceIte, List.map_append, List.sum_append, List.map_cons,
          List.sum_cons, List.map_nil, List.sum_nil, h1, List.count_append]
        rw [count_cons_eq, if_neg hsp]
        omega
    · rw [if_neg hne]
      push_neg at hne
      simp only [hne, reduceIte, List.count_nil]
      omega
  · rw [if_neg hov]
    by_cases hz : st.2 = []
    · simp only [hz, reduceIte, List.count_nil]
      omega
    · simp only [hz, reduceIte, List.count_append]
      rw [count_cons_eq, if_neg hsp]
      omega

theorem word_fold_count (cs ov : Nat) (ch : Char) (hws : pyIsSpace ch = false) :
    ∀ (ws : List (List Char)) (st : List (List Char) × List Char),
      (st.1.map (List.count ch)).sum + st.2.count ch + (ws.map (List.count ch)).sum ≤
        ((ws.foldl (word_step cs ov) st).1.map (List.count ch)).sum +
          (ws.foldl (word_step cs ov) st).2.count ch := by
  intro ws
  induction ws with
  | nil => intro st; simp
  | cons w tl ih =>
      intro st
      rw [List.foldl_cons]
      have h1 := word_step_count cs ov ch hws st w
      have h2 := ih (word_step cs ov st w)
      simp only [List.map_cons, List.sum_cons]
      omega

theorem sent_step_count (cs ov : Nat) (ch : Char) (hws : pyIsSpace ch = false)
    (hpu : isPunct ch = false) (st : List (List Char) × List Char) (s : List Char) :
    (st.1.map (List.count ch)).sum + st.2.count ch + s.count ch ≤
      ((sent_step cs ov st s).1.map (List.count ch)).sum +
        (sent_step cs ov st s).2.count ch := by
  have h1 : (py_strip st.2).count ch = st.2.count ch := count_py_strip ch hws st.2
  have hsp : ch ≠ ' ' := by
    intro hcon
    rw [hcon] at hws
    simp [pyIsSpace] at hws
  have hdot : ch ≠ '.' := by
    intro hcon
    rw [hcon] at hpu
    simp [isPunct] at hpu
  unfold sent_step
  by_cases hov : cs < st.2.length + s.length
  · rw [if_pos hov]
    have hst'1 : ((if st.2 ≠ [] then (st.1 ++ [py_strip st.2], py_tail ov st.2) else st).1.map
        (List.count ch)).sum ≥ (st.1.map (List.count ch)).sum + st.2.count ch := by
      by_cases hne : st.2 ≠ []
      · rw [if_pos hne]
        simp only [List.map_append, List.sum_append, List.map_cons, List.sum_cons,
          List.map_nil, List.sum_nil, h1]
        omega
      · rw [if_neg hne]
        push_neg at hne
        simp [hne]
    by_cases hlong : cs < s.length
    · rw [if_pos hlong]
      have hwf := word_fold_count cs ov ch hws (py_words s)
        ((if st.2 ≠ [] then (st.1 ++ [py_strip st.2], py_tail ov st.2) else st).1, [])
      rw [count_py_words ch hws s] at hwf
      simp only [List.count_nil] at hwf
      by_cases hr : ((py_words s).foldl (word_step cs ov)
          ((if st.2 ≠ [] then (st.1 ++ [py_strip st.2], py_tail ov st.2) else st).1, [])).2 ≠ []
      · simp only [if_pos hr]
        omega
      · simp only [if_neg hr]
        push_neg at hr
        rw [hr] at hwf
        simp only [List.count_nil] at hwf
        omega
    · rw [if_neg hlong]
      show (st.1.map (List.count ch)).sum + st.2.count ch + s.count ch ≤
        ((if st.2 ≠ [] then (st.1 ++ [py_strip st.2], py_tail ov st.2) else st).1.map
          (List.count ch)).sum + s.count ch
      omega
  · rw [if_neg hov]
    by_cases hz : st.2 = []
    · simp only [hz, reduceIte, List.count_nil]
      omega
    · simp only [hz, reduceIte, List.count_append]
      rw [count_cons_eq, if_neg hdot, count_cons_eq, if_neg hsp]
      omega

theorem sent_fold_count (cs ov : Nat) (ch : Char) (hws : pyIsSpace ch = false)
    (hpu : isPunct ch = false) :
    ∀ (ss : List (List Char)) (st : List (List Char) × List Char),
      (st.1.map (List.count ch)).sum + st.2.count ch + (ss.map (List.count ch)).sum ≤
        ((ss.foldl (sent_step cs ov) st).1.map (List.count ch)).sum +
          (ss.foldl (sent_step cs ov) st).2.count ch := by
  intro ss
  induction ss with
  | nil => intro st; simp
  | cons s tl ih =>
      intro st
      rw [List.foldl_cons]
      have h1 := sent_step_count cs ov ch hws hpu st s
      have h2 := ih (sent_step cs ov st s)
      simp only [List.map_cons, List.sum_cons]
      omega

theorem split_long_text_count (cs ov : Nat) (ch : Char) (hws : pyIsSpace ch = false)
    (hpu : isPunct ch = false) (text : List Char) :
    text.count ch ≤ ((split_long_text cs ov text).map (List.count ch)).sum := by
  have hsf := sent_fold_count cs ov ch hws hpu (split_sents text) ([], [])
  rw [count_split_sents ch hpu text] at hsf
  simp only [List.map_nil, List.sum_nil, List.count_nil, Nat.zero_add] at hsf
  unfold split_long_text
  by_cases hr : ((split_sents text).foldl (sent_step cs ov) ([], [])).2 ≠ []
  · rw [if_pos hr]
    simp only [List.map_append, List.sum_append, List.map_cons, List.sum_cons,
      List.map_nil, List.sum_nil]
    rw [count_py_strip ch hws]
    omega
  · rw [if_neg hr]
    push_neg at hr
    rw [hr] at hsf
    simp only [List.count_nil] at hsf
    omega

theorem para_step_count (cs ov : Nat) (ch : Char) (hws : pyIsSpace ch = false)
    (hpu : isPunct ch = false) (st : List (List Char) × List Char) (p : List Char) :
    (st.1.map (List.count ch)).sum + st.2.count ch + p.count ch ≤
      ((para_step cs ov st p).1.map (List.count ch)).sum +
        (para_step cs ov st p).2.count ch := by
  have h1 : (py_strip st.2).count ch = st.2.count ch := count_py_strip ch hws st.2
  have hnl : ch ≠ '\n' := by
    intro hcon
    rw [hcon] at hws
    simp [pyIsSpace] at hws
  unfold para_step
  by_cases hov : cs < st.2.length + p.length
  · rw [if_pos hov]
    have hst'1 : ((if st.2 ≠ [] then (st.1 ++ [py_strip st.2], py_tail ov st.2) else st).1.map
        (List.count ch)).sum ≥ (st.1.map (List.count ch)).sum + st.2.count ch := by
      by_cases hne : st.2 ≠ []
      · rw [if_pos hne]
        simp only [List.map_append, List.sum_append, List.map_cons, List.sum_cons,
          List.map_nil, List.sum_nil, h1]
        omega
      · rw [if_neg hne]
        push_neg at hne
        simp [hne]
    by_cases hlong : cs < p.length
    · rw [if_pos hlong]
      have hsl := split_long_text_count cs ov ch hws hpu p
      simp only [List.map_append, List.sum_append, List.count_nil]
      omega
    · rw [if_neg hlong]
      show (st.1.map (List.count ch)).sum + st.2.count ch + p.count ch ≤
        ((if st.2 ≠ [] then (st.1 ++ [py_strip st.2], py_tail ov st.2) else st).1.map
          (List.count ch)).sum + p.count ch
      omega
  · rw [if_neg hov]
    by_cases hz : st.2 = []
    · simp only [hz, reduceIte, List.count_nil]
      omega
    · simp only [hz, reduceIte, List.count_append]
      rw [count_cons_eq ch '\n', if_neg hnl, count_cons_eq ch '\n', if_neg hnl]
      omega

theorem para_fold_count (cs ov : Nat) (ch : Char) (hws : pyIsSpace ch = false)
    (hpu : isPunct ch = false) :
    ∀ (ps : List (List Char)) (st : List (List Char) × List Char),
      (st.1.map (List.count ch)).sum + st.2.count ch + (ps.map (List.count ch)).sum ≤
        ((ps.foldl (para_step cs ov) st).1.map (List.count ch)).sum +
          (ps.foldl (para_step cs ov) st).2.count ch := by
  intro ps
  induction ps with
  | nil => intro st; simp
  | cons p tl ih =>
      intro st
      rw [List.foldl_cons]
      have h1 := para_step_count cs ov ch hws hpu st p
      have h2 := ih (para_step cs ov st p)
      simp only [List.map_cons, List.sum_cons]
      omega

theorem sum_counts_filter_strip (ch : Char) (hws : pyIsSpace ch = false)
    (ll : List (List Char)) :
    ((ll.filter (fun c => py_strip c ≠ [])).map (List.count ch)).sum =
      (ll.map (List.count ch)).sum := by
  induction ll with
  | nil => rfl
  | cons x xs ih =>
      by_cases h : py_strip x = []
      · have hx : x.count ch = 0 := by
          rw [← count_py_strip ch hws x, h, List.count_nil]
        rw [List.filter_cons_of_neg (by simp [h])]
        simp only [List.map_cons, List.sum_cons, hx, ih]
        omega
      · rw [List.filter_cons_of_pos (by simp [h])]
        simp only [List.map_cons, List.sum_cons, ih]

/-- C3 (amended): for every character that is neither whitespace nor one
of the sentence punctuation characters `.`, `!`, `?`, the concatenation
of the recursive chunks contains at least as many occurrences as the
original text: no such character is lost.  Sentence punctuation itself
is deleted by the `re.split(r'[.!?]+', ...)` fallback and only partially
re-inserted, so the claim fails for those characters. -/
theorem recursive_chunking_count_preserved (text : List Char) (ch : Char)
    (hws : pyIsSpace ch = false) (hpu : isPunct ch = false) :
    text.count ch ≤ ((recursive_chunking text).flatten).count ch := by
  have hnl : ch ≠ '\n' := by
    intro hcon
    rw [hcon] at hws
    simp [pyIsSpace] at hws
  have hpf := para_fold_count CHUNK_SIZE CHUNK_OVERLAP ch hws hpu (split_paras text) ([], [])
  rw [count_split_paras ch hnl text] at hpf
  simp only [List.map_nil, List.sum_nil, List.count_nil, Nat.zero_add] at hpf
  rw [List.count_flatten]
  unfold recursive_chunking
  rw [sum_counts_filter_strip ch hws]
  by_cases hr : ((split_paras text).foldl (para_step CHUNK_SIZE CHUNK_OVERLAP) ([], [])).2 ≠ []
  · rw [if_pos hr]
    simp only [List.map_append, List.sum_append, List.map_cons, List.sum_cons,
      List.map_nil, List.sum_nil]
    rw [count_py_strip ch hws]
    omega
  · rw [if_neg hr]
    push_neg at hr
    rw [hr] at hpf
    simp only [List.count_nil] at hpf
    omega

/-- C3 witness: the non-whitespace non-punctuation character `x` of the
text `"ax b"` survives into the concatenated chunks. -/
theorem recursive_chunking_count_preserved_witness :
    pyIsSpace 'x' = false ∧ isPunct 'x' = false ∧
      ("ax b".data).count 'x' ≤ ((recursive_chunking "ax b".data).flatten).count 'x' :=
  ⟨rfl, rfl, recursive_chunking_count_preserved "ax b".data 'x' rfl rfl⟩

/-- C3 counterexample: the text `aaaa...a.bbbb...b` (600 `a`s, one
period, 600 `b`s — a single 1201-character paragraph) chunks into
`[a^600, b^600]`: the period, a non-whitespace character, appears once
in the text but zero times in the concatenated chunks. -/
theorem recursive_chunking_drops_punct_cex :
    recursive_chunking (List.replicate 600 'a' ++ '.' :: List.replicate 600 'b') =
        [List.replicate 600 'a', List.replicate 600 'b'] ∧
      (List.replicate 600 'a' ++ '.' :: List.replicate 600 'b').count '.' = 1 ∧
      ((recursive_chunking
          (List.replicate 600 'a' ++ '.' :: List.replicate 600 'b')).flatten).count '.' = 0 := by
  have hane : List.replicate 600 'a' ≠ ([] : List Char) := by simp
  have hbne : List.replicate 600 'b' ≠ ([] : List Char) := by simp
  have hnl : ∀ c ∈ List.replicate 600 'a' ++ '.' :: List.replicate 600 'b', c ≠ '\n' := by
    intro c hc
    rcases List.mem_append.mp hc with h | h
    · rw [List.eq_of_mem_replicate h]; decide
    · rcases List.mem_cons.mp h with h | h
      · rw [h]; decide
      · rw [List.eq_of_mem_replicate h]; decide
  have h1 : split_paras (List.replicate 600 'a' ++ '.' :: List.replicate 600 'b') =
      [List.replicate 600 'a' ++ '.' :: List.replicate 600 'b'] :=
    split_paras_no_nl _ hnl
  have hinner : split_runs isPunct false ('.' :: List.replicate 600 'b') =
      [[], List.replicate 600 'b'] := by
    rw [split_runs_false_cons, if_pos (by decide)]
    rw [split_runs_true_no_delim isPunct _ hbne
      (fun c hc => by rw [List.eq_of_mem_replicate hc]; rfl)]
  have h2 : split_sents (List.replicate 600 'a' ++ '.' :: List.replicate 600 'b') =
      [List.replicate 600 'a', List.replicate 600 'b'] := by
    unfold split_sents
    rw [split_runs_append_no_delim isPunct _ _
      (fun c hc => by rw [List.eq_of_mem_replicate hc]; rfl)]
    rw [hinner]
    simp
  have hstrip_a : py_strip (List.replicate 600 'a') = List.replicate 600 'a' :=
    py_strip_no_ws _ (fun c hc => by rw [List.eq_of_mem_replicate hc]; rfl)
  have hstrip_b : py_strip (List.replicate 600 'b') = List.replicate 600 'b' :=
    py_strip_no_ws _ (fun c hc => by rw [List.eq_of_mem_replicate hc]; rfl)
  have hs1 : sent_step CHUNK_SIZE CHUNK_OVERLAP (([] : List (List Char)), ([] : List Char))
      (List.replicate 600 'a') = ([], List.replicate 600 'a') := by
    norm_num [sent_step, CHUNK_SIZE]
  have hs2 : sent_step CHUNK_SIZE CHUNK_OVERLAP (([] : List (List Char)), List.replicate 600 'a')
      (List.replicate 600 'b') = ([List.replicate 600 'a'], List.replicate 600 'b') := by
    norm_num [sent_step, CHUNK_SIZE, hane, hstrip_a]
  have hsl : split_long_text CHUNK_SIZE CHUNK_OVERLAP
      (List.replicate 600 'a' ++ '.' :: List.replicate 600 'b') =
      [List.replicate 600 'a', List.replicate 600 'b'] := by
    unfold split_long_text
    rw [h2, List.foldl_cons, hs1, List.foldl_cons, hs2, List.foldl_nil]
    norm_num [hbne, hstrip_b]
  have hsl1000 : split_long_text 1000 CHUNK_OVERLAP
      (List.replicate 600 'a' ++ '.' :: List.replicate 600 'b') =
      [List.replicate 600 'a', List.replicate 600 'b'] := by
    rw [show (1000 : Nat) = CHUNK_SIZE from rfl]
    exact hsl
  have hps : para_step CHUNK_SIZE CHUNK_OVERLAP (([] : List (List Char)), ([] : List Char))
      (List.replicate 600 'a' ++ '.' :: List.replicate 600 'b') =
      ([List.replicate 600 'a', List.replicate 600 'b'], []) := by
    norm_num [para_step, CHUNK_SIZE, hsl, hsl1000]
  have hmain : recursive_chunking (List.replicate 600 'a' ++ '.' :: List.replicate 600 'b') =
      [List.replicate 600 'a', List.replicate 600 'b'] := by
    unfold recursive_chunking
    rw [h1, List.foldl_cons, hps, List.foldl_nil]
    norm_num [hstrip_a, hstrip_b, hane, hbne]
  refine ⟨hmain, ?_, ?_⟩
  · rw [List.count_append, List.count_cons_self, List.count_replicate, List.count_replicate]
    decide
  · rw [hmain]
    have hfl : ([List.replicate 600 'a', List.replicate 600 'b'] : List (List Char)).flatten =
        List.replicate 600 'a' ++ (List.replicate 600 'b' ++ []) := rfl
    rw [hfl, List.count_append, List.count_append, List.count_nil,
      List.count_replicate, List.count_replicate]
    decide

/-! ### Claim C6: fallback search ranking -/

theorem score_rank_asymm (a b : Nat × (ℝ × Entry)) :
    score_rank a b → score_rank b a → False := by
  unfold score_rank
  intro h1 h2
  rcases h1 with h1 | ⟨h1, h1i⟩ <;> rcases h2 with h2 | ⟨h2, h2i⟩
  · exact lt_asymm h1 h2
  · rw [h2] at h1; exact lt_irrefl _ h1
  · rw [h1] at h2; exact lt_irrefl _ h2
  · omega

theorem le_fst_of_mem_enumFrom :
    ∀ (xs : List (ℝ × Entry)) (n : Nat) (p : Nat × (ℝ × Entry)),
      p ∈ List.enumFrom n xs → n ≤ p.1 := by
  intro xs
  induction xs with
  | nil => intro n p h; cases h
  | cons x tl ih =>
      intro n p h
      rw [List.enumFrom_cons] at h
      rcases List.mem_cons.mp h with h | h
      · rw [h]
      · exact le_trans (Nat.le_succ n) (ih (n + 1) p h)

theorem map_snd_orderedInsert (n : Nat) (x : ℝ × Entry) :
    ∀ (S : List (Nat × (ℝ × Entry))), (∀ p ∈ S, n < p.1) →
      (List.orderedInsert score_rank_weak (n, x) S).map Prod.snd =
        List.orderedInsert (fun a b => b.1 ≤ a.1) x (S.map Prod.snd) := by
  intro S
  induction S with
  | nil => intro _; rfl
  | cons q S' ih =>
      intro hS
      have hq : n < q.1 := hS q (List.mem_cons_self _ _)
      have hiff : score_rank_weak (n, x) q ↔ q.2.1 ≤ x.1 := by
        unfold score_rank_weak
        constructor
        · rintro (h | ⟨h, _⟩)
          · exact le_of_lt h
          · exact le_of_eq h.symm
        · intro h
          rcases lt_or_eq_of_le h with h | h
          · exact Or.inl h
          · exact Or.inr ⟨h.symm, le_of_lt hq⟩
      simp only [List.orderedInsert, List.map_cons]
      by_cases h : q.2.1 ≤ x.1
      · rw [if_pos (hiff.mpr h), if_pos h]
        simp
      · rw [if_neg (fun hc => h (hiff.mp hc)), if_neg h]
        rw [List.map_cons, ih (fun p hp => hS p (List.mem_cons_of_mem _ hp))]

theorem map_snd_insertionSort_enumFrom :
    ∀ (xs : List (ℝ × Entry)) (n : Nat),
      (List.insertionSort score_rank_weak (List.enumFrom n xs)).map Prod.snd =
        List.insertionSort (fun a b => b.1 ≤ a.1) xs := by
  intro xs
  induction xs with
  | nil => intro n; rfl
  | cons x tl ih =>
      intro n
      rw [List.enumFrom_cons]
      simp only [List.insertionSort]
      have hS : ∀ p ∈ List.insertionSort score_rank_weak (List.enumFrom (n + 1) tl),
          n < p.1 := by
        intro p hp
        have hmem : p ∈ List.enumFrom (n + 1) tl :=
          (List.perm_insertionSort score_rank_weak (List.enumFrom (n + 1) tl)).subset hp
        exact lt_of_lt_of_le (Nat.lt_succ_self n) (le_fst_of_mem_enumFrom tl (n + 1) p hmem)
      rw [map_snd_orderedInsert n x _ hS, ih (n + 1)]

theorem insertionSort_enum_pairwise_rank (scored : List (ℝ × Entry)) :
    (List.insertionSort score_rank_weak scored.enum).Pairwise score_rank := by
  have hsorted : (List.insertionSort score_rank_weak scored.enum).Pairwise score_rank_weak :=
    List.sorted_insertionSort score_rank_weak scored.enum
  have hnodup : ((List.insertionSort score_rank_weak scored.enum).map Prod.fst).Nodup := by
    have hperm := List.perm_insertionSort score_rank_weak scored.enum
    exact ((hperm.map Prod.fst).nodup_iff).mpr (List.nodup_enum_map_fst scored)
  have hne : (List.insertionSort score_rank_weak scored.enum).Pairwise
      (fun a b => a.1 ≠ b.1) := List.pairwise_map.mp hnodup
  refine (hsorted.and hne).imp ?_
  rintro a b ⟨hw, hab⟩
  unfold score_rank_weak at hw
  unfold score_rank
  rcases hw with h | ⟨h, hi⟩
  · exact Or.inl h
  · exact Or.inr ⟨h, lt_of_le_of_ne hi hab⟩

theorem pairwise_perm_eq {α : Type} {r : α → α → Prop}
    (hasymm : ∀ a b, r a b → r b a → False) :
    ∀ {l₁ l₂ : List α}, l₁.Perm l₂ → l₁.Pairwise r → l₂.Pairwise r → l₁ = l₂ := by
  intro l₁
  induction l₁ with
  | nil =>
      intro l₂ hp _ _
      exact (hp.symm.eq_nil).symm
  | cons a t₁ ih =>
      intro l₂ hp hp₁ hp₂
      cases l₂ with
      | nil => exact absurd hp.eq_nil (by simp)
      | cons b t₂ =>
          by_cases hab : a = b
          · subst hab
            rw [ih (hp.cons_inv) (List.pairwise_cons.mp hp₁).2 (List.pairwise_cons.mp hp₂).2]
          · have ha2 : a ∈ t₂ := by
              have : a ∈ b :: t₂ := hp.subset (List.mem_cons_self _ _)
              rcases List.mem_cons.mp this with h | h
              · exact absurd h hab
              · exact h
            have hb1 : b ∈ t₁ := by
              have : b ∈ a :: t₁ := hp.symm.subset (List.mem_cons_self _ _)
              rcases List.mem_cons.mp this with h | h
              · exact absurd h.symm hab
              · exact h
            have hrab : r a b := (List.pairwise_cons.mp hp₁).1 b hb1
            have hrba : r b a := (List.pairwise_cons.mp hp₂).1 a ha2
            exact absurd hrab (fun hc => hasymm a b hc hrba)

/-- C6: on a non-empty collection of the fallback backend, `search`
scores every stored entry with the exact cosine similarity of the query
embedding, and its result is the first `top_k` payloads of the unique
arrangement of the indexed scored entries sorted by strictly descending
similarity with ties broken by insertion order; in particular at most
`top_k` results are returned. -/
theorem vs_search_topk_sorted (store : Store) (cid : String) (entries : List Entry)
    (qemb : List ℝ) (k : Nat) (l : List (Nat × (ℝ × Entry)))
    (h1 : lookup_coll store cid = some entries) (h2 : entries ≠ [])
    (hperm : l.Perm ((entries.map (fun e => (cosine_sim qemb e.embedding, e))).enum))
    (hsorted : l.Pairwise score_rank) :
    vs_search store cid qemb k = (l.take k).map (fun x => x.2.2) ∧
      (vs_search store cid qemb k).length ≤ k := by
  have hempty : entries.isEmpty = false := by
    cases entries with
    | nil => exact absurd rfl h2
    | cons e es => rfl
  have himpl : vs_search store cid qemb k =
      ((List.insertionSort (fun a b => b.1 ≤ a.1)
          (entries.map (fun e => (cosine_sim qemb e.embedding, e)))).take k).map (·.2) := by
    unfold vs_search
    rw [h1]
    simp [hempty]
  have hstab := map_snd_insertionSort_enumFrom
    (entries.map (fun e => (cosine_sim qemb e.embedding, e))) 0
  have huniq : l = List.insertionSort score_rank_weak
      ((entries.map (fun e => (cosine_sim qemb e.embedding, e))).enum) := by
    refine pairwise_perm_eq score_rank_asymm ?_ hsorted ?_
    · exact hperm.trans (List.perm_insertionSort _ _).symm
    · exact insertionSort_enum_pairwise_rank _
  constructor
  · rw [himpl, huniq]
    have henum : (entries.map (fun e => (cosine_sim qemb e.embedding, e))).enum =
        List.enumFrom 0 (entries.map (fun e => (cosine_sim qemb e.embedding, e))) := rfl
    rw [henum, ← hstab, ← List.map_take, List.map_map]
    rfl
  · rw [himpl]
    simp only [List.length_map, List.length_take]
    omega

/-- C6 witness: a one-entry collection searched with `top_k = 1` returns
exactly that entry, matching the sorted-prefix characterization. -/
theorem vs_search_topk_sorted_witness :
    lookup_coll [("c", [⟨[1], ⟨"hello".data, 0⟩⟩])] "c" = some [⟨[1], ⟨"hello".data, 0⟩⟩] ∧
      ([((0 : Nat), (cosine_sim [1] [1], (⟨[1], ⟨"hello".data, 0⟩⟩ : Entry)))].Perm
        (([(⟨[1], ⟨"hello".data, 0⟩⟩ : Entry)].map
          (fun e => (cosine_sim [1] e.embedding, e))).enum)) ∧
      ([((0 : Nat), (cosine_sim [1] [1], (⟨[1], ⟨"hello".data, 0⟩⟩ : Entry)))].Pairwise
        score_rank) ∧
      vs_search [("c", [⟨[1], ⟨"hello".data, 0⟩⟩])] "c" [1] 1 =
        (([((0 : Nat), (cosine_sim [1] [1], (⟨[1], ⟨"hello".data, 0⟩⟩ : Entry)))].take 1).map
          (fun x => x.2.2)) := by
  refine ⟨rfl, List.Perm.refl _, List.pairwise_singleton _ _, ?_⟩
  exact (vs_search_topk_sorted [("c", [⟨[1], ⟨"hello".data, 0⟩⟩])] "c"
    [⟨[1], ⟨"hello".data, 0⟩⟩] [1] 1
    [((0 : Nat), (cosine_sim [1] [1], (⟨[1], ⟨"hello".data, 0⟩⟩ : Entry)))]
    rfl (by simp) (List.Perm.refl _) (List.pairwise_singleton _ _)).1

end DocAgent
